import Mathlib

/-!
Verification of the constraint-based minesweeper director (attempt2.py), the
shared data structures (datastructures.py) and the endgame rule of attempt1.py.

Cells are encoded as natural numbers `c` on a `width × height` grid, with
coordinates `x = c % width`, `y = c / width`.  A board state assigns every
cell a type code exactly as in `director/base.py`:
`0..8` revealed numbers (0 = empty), `9` unrevealed, `10` flagged.
-/

set_option maxRecDepth 10000

namespace Minesweeper

/-- Cells are identified by their encoded position on the grid. -/
abbrev Cell := ℕ

/-- A board snapshot: grid dimensions plus the type code of each cell,
mirroring the query interface of `BaseControl` / `Cell` in base.py. -/
structure Board where
  width : ℕ
  height : ℕ
  typeAt : Cell → ℕ

/-- All cells of the board (`BaseControl.get_cells`). -/
def Board.cellsAll (b : Board) : Finset Cell := Finset.range (b.width * b.height)

/-- X coordinate of a cell. -/
def Board.xOf (b : Board) (c : Cell) : ℕ := c % b.width

/-- Y coordinate of a cell. -/
def Board.yOf (b : Board) (c : Cell) : ℕ := c / b.width

/-- In-bounds lookup of a cell by signed coordinates (`BaseControl.get_cell`
returns `None` when out of bounds). -/
def Board.getCell (b : Board) (x y : ℤ) : Option Cell :=
  if 0 ≤ x ∧ x < b.width ∧ 0 ≤ y ∧ y < b.height then
    some (x.toNat + y.toNat * b.width)
  else
    none

/-- The eight neighbor offsets from `Cell.get_neighbor_deltas`. -/
def neighborDeltas : List (ℤ × ℤ) :=
  [(-1, -1), (0, -1), (1, -1), (1, 0), (1, 1), (0, 1), (-1, 1), (-1, 0)]

/-- The set of on-board neighbors of a cell (`Cell.get_neighbors`). -/
def Board.neighbors (b : Board) (c : Cell) : Finset Cell :=
  (neighborDeltas.filterMap
    (fun d => b.getCell ((b.xOf c : ℤ) + d.1) ((b.yOf c : ℤ) + d.2))).toFinset

/-- Cell predicate `Cell.is_unrevealed`. -/
def Board.is_unrevealed (b : Board) (c : Cell) : Prop := b.typeAt c = 9

instance (b : Board) (c : Cell) : Decidable (b.is_unrevealed c) :=
  decidable_of_iff (b.typeAt c = 9) Iff.rfl

/-- Cell predicate `Cell.is_flagged`. -/
def Board.is_flagged (b : Board) (c : Cell) : Prop := b.typeAt c = 10

instance (b : Board) (c : Cell) : Decidable (b.is_flagged c) :=
  decidable_of_iff (b.typeAt c = 10) Iff.rfl

/-- Cell predicate `Cell.is_number`: a revealed number 1..8 (type `0`, the
empty cell, is excluded just as in `Cell.is_number`). -/
def Board.is_number (b : Board) (c : Cell) : Prop :=
  b.typeAt c ≤ 8 ∧ b.typeAt c ≠ 0

instance (b : Board) (c : Cell) : Decidable (b.is_number c) :=
  decidable_of_iff (b.typeAt c ≤ 8 ∧ b.typeAt c ≠ 0) Iff.rfl

/-- Unrevealed on-board neighbors (`cell.get_neighbors(is_unrevealed=True)`). -/
def Board.unrevealedNbrs (b : Board) (c : Cell) : Finset Cell :=
  (b.neighbors c).filter (fun q => b.is_unrevealed q)

/-- Numbered on-board neighbors (`cell.get_neighbors(is_number=True)`). -/
def Board.numberNbrs (b : Board) (c : Cell) : Finset Cell :=
  (b.neighbors c).filter (fun q => b.is_number q)

/-- Flagged on-board neighbors (`cell.get_neighbors(is_flagged=True)`). -/
def Board.flaggedNbrs (b : Board) (c : Cell) : Finset Cell :=
  (b.neighbors c).filter (fun q => b.is_flagged q)

/-- All unrevealed cells of the board. -/
def Board.unrevealedCells (b : Board) : Finset Cell :=
  b.cellsAll.filter (fun c => b.is_unrevealed c)

/-- Flags-remaining count of a numbered cell (`Cell.num_flags_left`:
the cell's number minus its count of flagged neighbors).  The Python
property is only ever evaluated on numbered cells. -/
def Board.num_flags_left (b : Board) (c : Cell) : ℤ :=
  (b.typeAt c : ℤ) - (b.flaggedNbrs c).card

/-- A constraint over a set of unrevealed cells with a bounded mine count
(class `Group` of attempt2.py).  The `sources` field of the Python class is
omitted here: `Group.__eq__` and `Group.__hash__` ignore it (see the
separate `GroupS` model used to verify exactly that), so group values,
and in particular the `frozenset`s of groups the director builds, are
determined by this triple. -/
structure Group where
  cells : Finset Cell
  lower_bound : ℤ
  upper_bound : ℤ
deriving DecidableEq

/-- Group subtraction (`Group.__sub__`). -/
def Group.sub (A B : Group) : Group :=
  { cells := A.cells \ B.cells
    lower_bound := max 0 (A.lower_bound - min A.upper_bound B.upper_bound)
    upper_bound := min ((A.cells \ B.cells).card : ℤ)
      (A.upper_bound - (B.lower_bound - ((B.cells \ A.cells).card : ℤ))) }

/-- Group intersection (`Group.__and__`). -/
def Group.inter (A B : Group) : Group :=
  { cells := A.cells ∩ B.cells
    lower_bound := max 0 (max (A.lower_bound - ((A.cells \ B.cells).card : ℤ))
      (B.lower_bound - ((B.cells \ A.cells).card : ℤ)))
    upper_bound := min ((A.cells ∩ B.cells).card : ℤ)
      (min A.upper_bound B.upper_bound) }

/-- Pairwise combination (`Group.combine`): the three pieces with any
empty-celled results dropped (`Group.__bool__` is `len(cells) > 0`). -/
def Group.combine (A B : Group) : List Group :=
  [A.sub B, A.inter B, B.sub A].filter (fun g => g.cells ≠ ∅)

/-- Whether the bounds leave no wiggle room (`Group.is_solid`). -/
def Group.is_solid (g : Group) : Prop := g.lower_bound = g.upper_bound

instance (g : Group) : Decidable g.is_solid :=
  decidable_of_iff (g.lower_bound = g.upper_bound) Iff.rfl

/-- Whether the group determines every cell (`Group.is_confident`). -/
def Group.is_confident (g : Group) : Prop :=
  g.is_solid ∧ (g.lower_bound = 0 ∨ g.lower_bound = (g.cells.card : ℤ))

instance (g : Group) : Decidable g.is_confident := by
  unfold Group.is_confident; infer_instance

/-- Mine probability of a group (`Group.probability`), computed in ℚ.
On an empty cell set with nonzero bounds the Python property returns a
float NaN; that branch yields 0 here and is never relied upon: every use
in this development applies `probability` to a group containing at least
one cell, where the model and the code agree exactly. -/
def Group.probability (g : Group) : ℚ :=
  if g.lower_bound = g.upper_bound ∧ g.upper_bound = 0 then 0
  else if g.lower_bound = g.upper_bound ∧ g.upper_bound = (g.cells.card : ℤ) then 1
  else if g.cells.card = 0 then 0
  else ((g.lower_bound : ℚ) / g.cells.card + (g.upper_bound : ℚ) / g.cells.card) / 2

/-- Full model of the Python `Group` object including the debugging
`sources` field, used to verify the equality/hash contract (C10). -/
structure GroupS where
  cells : Finset Cell
  lower_bound : ℤ
  upper_bound : ℤ
  sources : Finset String

/-- The triple `Group.deconstruct` returns. -/
def GroupS.deconstruct (g : GroupS) : Finset Cell × ℤ × ℤ :=
  (g.cells, g.lower_bound, g.upper_bound)

/-- Python `Group.__eq__`: equality of the deconstructed triples. -/
def GroupS.pyEq (a b : GroupS) : Prop := a.deconstruct = b.deconstruct

instance (a b : GroupS) : Decidable (a.pyEq b) := by
  unfold GroupS.pyEq; infer_instance

/-- Python `Group.__hash__`: the builtin `hash` (modelled as an arbitrary
function `h`) applied to the deconstructed triple. -/
def GroupS.pyHash (h : Finset Cell × ℤ × ℤ → ℕ) (g : GroupS) : ℕ :=
  h g.deconstruct

/-- Seeding of groups from a collection of cells
(`System.find_visible_groups`).  One group per numbered cell that has at
least one unrevealed neighbor (both bounds equal to its flags-remaining
count), then the board-wide catch-all group over all unrevealed cells of
the collection.  The Python function also computes a `remaining_unrevealed`
set, but never uses it: the final `yield` passes `all_unrevealed`.
The input collection is taken as a list (Python iterates a tuple of a
frozenset in unspecified order; every claim below is order-independent). -/
def find_visible_groups (b : Board) (cells : List Cell) (total_cells_left : ℤ) :
    List Group :=
  let all_unrevealed : Finset Cell :=
    (cells.filter fun c => decide (b.is_unrevealed c)).toFinset
  let numbered : List Cell := cells.filter fun c => decide (b.is_number c)
  (numbered.filter fun c => decide ((b.unrevealedNbrs c).Nonempty)).map
    (fun c => ⟨b.unrevealedNbrs c, b.num_flags_left c, b.num_flags_left c⟩)
  ++ [⟨all_unrevealed, 0, min (all_unrevealed.card : ℤ) total_cells_left⟩]

/-- A mine placement `m` is consistent with the observed board when flags
sit on mines, revealed cells are not mines, every revealed number equals
its count of mine neighbors, and the number of unflagged mines equals the
`get_mines_left` count. -/
def Board.consistent (b : Board) (m : Finset Cell) (mines_left : ℤ) : Prop :=
  m ⊆ b.cellsAll ∧
  (∀ c ∈ b.cellsAll, b.is_flagged c → c ∈ m) ∧
  (∀ c ∈ m, b.is_unrevealed c ∨ b.is_flagged c) ∧
  (∀ c ∈ b.cellsAll, b.typeAt c ≤ 8 →
    (b.typeAt c : ℤ) = (((b.neighbors c).filter (fun q => q ∈ m)).card : ℤ)) ∧
  ((b.unrevealedCells.filter (fun c => c ∈ m)).card : ℤ) = mines_left

instance (b : Board) (m : Finset Cell) (k : ℤ) : Decidable (b.consistent m k) := by
  unfold Board.consistent; infer_instance

/-- A group is a true constraint for the placement `m` when the number of
mines among its cells lies within its bounds. -/
def soundFor (m : Finset Cell) (g : Group) : Prop :=
  g.lower_bound ≤ ((m ∩ g.cells).card : ℤ) ∧ ((m ∩ g.cells).card : ℤ) ≤ g.upper_bound

instance (m : Finset Cell) (g : Group) : Decidable (soundFor m g) := by
  unfold soundFor; infer_instance

/-- Ascending enumeration of a finite set of cells (used where the Python
code iterates a set in sorted or arbitrary order). -/
def ascCells (s : Finset Cell) : List Cell :=
  (List.range (s.sup id + 1)).filter (fun c => decide (c ∈ s))

/-- Probability `flatten_groups` assigns to a cell: the probability of a
confident group containing it if one exists (the Python code takes the
first such group of its iteration), otherwise the maximum probability over
all groups containing it.  The groups are carried as a list so that every
Python iteration order is covered by quantifying over the list. -/
def flatten_prob (groups : List Group) (c : Cell) : ℚ :=
  let containers := groups.filter fun g => decide (c ∈ g.cells)
  match containers.filter (fun g => decide g.is_confident) with
  | g :: _ => g.probability
  | [] =>
    match containers with
    | [] => 0
    | g :: rest => (rest.map Group.probability).foldl max g.probability

/-- All cells referenced by at least one group (`GroupGraph.all_props`). -/
def all_cells (groups : List Group) : Finset Cell :=
  groups.foldr (fun g acc => g.cells ∪ acc) ∅

/-- Per-cell probabilities (`flatten_groups`).  Python sorts the cells by
`(x, y)`; the model sorts by the cell encoding, which only permutes the
output list. -/
def flatten_groups (groups : List Group) : List (ℚ × Cell) :=
  (ascCells (all_cells groups)).map fun c => (flatten_prob groups c, c)

/-- Partition of the flattened probabilities into confident moves and
leftover probabilities (`split_moves`): probability 1 becomes a
`right_click` (flag), probability 0 a `click` (reveal). -/
def split_moves (groups : List Group) : List (String × Cell) × List (ℚ × Cell) :=
  (flatten_groups groups).foldr
    (fun pc acc =>
      if pc.1 = 1 then (("right_click", pc.2) :: acc.1, acc.2)
      else if pc.1 = 0 then (("click", pc.2) :: acc.1, acc.2)
      else (acc.1, pc :: acc.2))
    ([], [])

/-- Modelled from the spec: `System.simplify` calls
`graph.get_independent_objects()`, which is not defined anywhere under
src/ (only this call site exists); the spec's Constraint Index contract
describes it as `independent_groups()`, "constraints whose cell sets are
disjoint from all others currently indexed". -/
def get_independent_objects (graph : Finset Group) : Finset Group :=
  graph.filter fun g => ∀ g' ∈ graph, g' ≠ g → Disjoint g.cells g'.cells

/-- The part of `System.simplify` that runs after the fixed-point loop
(attempt2.py lines 289-302), as a function of the loop's resulting group
graph: collect the independent groups (the Python filter
`group.upper_bound < float('inf')` never rejects an integer bound); if
their upper bounds sum to the system's upper bound, replace the
non-independent groups by a single `[0, 0]` group over their cells
(provided that cell set is nonempty); if any independent group exists,
the system's lower bound becomes the sum of their lower bounds. -/
def simplify_tail (lower_bound upper_bound : ℤ) (graph : Finset Group) :
    ℤ × Finset Group :=
  let independents := get_independent_objects graph
  let independent_mines := ∑ g ∈ independents, g.upper_bound
  let graph2 :=
    if independent_mines = upper_bound then
      let other_cells := (graph \ independents).biUnion (fun g => g.cells)
      if other_cells ≠ ∅ then independents ∪ {⟨other_cells, 0, 0⟩} else graph
    else graph
  let lower2 := if independents ≠ ∅ then ∑ g ∈ independents, g.lower_bound
    else lower_bound
  (lower2, graph2)

/-- The bipartite flood fill of `System.trace`: repeatedly absorb the two
queues into the walked/unrevealed/edge sets, then refill the number queue
with numbered neighbors of the unrevealed queue and the unrevealed queue
with unrevealed neighbors of everything just queued, always excluding
already-walked cells.  The fuel argument only bounds the iteration count;
`System_trace` passes more fuel than the loop can consume. -/
def trace_go (b : Board) :
    ℕ → Finset Cell → Finset Cell → Finset Cell → Finset Cell → Finset Cell →
    Finset Cell × Finset Cell
  | 0, _, unrevealed, edges, _, _ => (unrevealed, edges)
  | fuel + 1, walked, unrevealed, edges, uq, nq =>
    if uq = ∅ ∧ nq = ∅ then (unrevealed, edges)
    else
      let walked2 := walked ∪ (uq ∪ nq)
      let nq2 := (uq.biUnion fun c => b.numberNbrs c) \ walked2
      let uq2 := ((uq ∪ nq).biUnion fun c => b.unrevealedNbrs c) \ walked2
      trace_go b fuel walked2 (unrevealed ∪ uq) (edges ∪ nq) uq2 nq2

/-- A connected system of cells (`System`): its unrevealed cells, its
numbered edge cells, bound information and seeded groups. -/
structure SystemS where
  unrevealed : Finset Cell
  edges : Finset Cell
  lower_bound : ℤ
  upper_bound : ℤ
  groups : Finset Group
deriving DecidableEq

/-- Tracing of a full system from an unrevealed start cell (`System.trace`):
flood-fill, then seed the groups with `find_visible_groups` over the
system's cells (Python stores them as a `frozenset`, here a `Finset`). -/
def System_trace (b : Board) (start : Cell) (upper_bound : ℤ) : SystemS :=
  let p := trace_go b (b.cellsAll.card + 1) ∅ ∅ ∅ {start} ∅
  { unrevealed := p.1
    edges := p.2
    lower_bound := 0
    upper_bound := upper_bound
    groups := (find_visible_groups b (ascCells (p.1 ∪ p.2)) upper_bound).toFinset }

/-- Worker for `find_systems`: trace the system of a picked unrevealed cell,
then continue on the cells not absorbed by it.  `pick` stands for Python's
arbitrary `set.pop`; the theorems quantify over every picking function that
returns a member of its argument. -/
def find_systems_go (b : Board) (upper_bound : ℤ) (pick : Finset Cell → Cell) :
    ℕ → Finset Cell → List SystemS
  | 0, _ => []
  | fuel + 1, s =>
    if s ≠ ∅ then
      let sys := System_trace b (pick s) upper_bound
      sys :: find_systems_go b upper_bound pick fuel (s \ sys.unrevealed)
    else []

/-- Partition of the unrevealed cells into systems (`find_systems`). -/
def find_systems (b : Board) (upper_bound : ℤ) (pick : Finset Cell → Cell) :
    List SystemS :=
  find_systems_go b upper_bound pick (b.unrevealedCells.card + 1) b.unrevealedCells

/-- One undirected step of the connectivity relation the flood fill of
`System.trace` explores: from an unrevealed cell to a numbered neighbor,
or from an unrevealed or numbered cell to an unrevealed neighbor. -/
def linked (b : Board) (p q : Cell) : Prop :=
  p ∈ b.cellsAll ∧
    ((b.is_unrevealed p ∧ q ∈ b.numberNbrs p) ∨
     ((b.is_unrevealed p ∨ b.is_number p) ∧ q ∈ b.unrevealedNbrs p))

/-- Connectivity: reflexive-transitive closure of `linked`. -/
def Reach (b : Board) (s c : Cell) : Prop := Relation.ReflTransGen (linked b) s c

/-- An operation on a `PropertyGraph`: `add` (with the properties the
graph's `get_props` plus `extra_props` return for the object) or `remove`. -/
inductive PGOp where
  | add (o : ℕ) (props : List ℕ)
  | remove (o : ℕ)

/-- State of a `PropertyGraph`: the keys of `_props` (the objects currently
in the graph), the `_props` mapping and the `_reverse` mapping.  The two
`defaultdict`s return the empty set outside their keys. -/
structure PGState where
  dom : Finset ℕ
  props_of : ℕ → Finset ℕ
  reverse : ℕ → Finset ℕ

/-- The freshly constructed empty graph. -/
def PGState.init : PGState := ⟨∅, fun _ => ∅, fun _ => ∅⟩

/-- `PropertyGraph.add`: record the properties for the object and add the
object to the reverse set of each property. -/
def PGState.addOp (s : PGState) (o : ℕ) (ps : List ℕ) : PGState :=
  { dom := insert o s.dom
    props_of := fun o' => if o' = o then s.props_of o ∪ ps.toFinset else s.props_of o'
    reverse := fun p => if p ∈ ps then insert o (s.reverse p) else s.reverse p }

/-- `PropertyGraph.remove`: discard the object from the reverse set of each
of its properties, then delete its `_props` entry. -/
def PGState.removeOp (s : PGState) (o : ℕ) : PGState :=
  { dom := s.dom.erase o
    props_of := fun o' => if o' = o then ∅ else s.props_of o'
    reverse := fun p => if p ∈ s.props_of o then (s.reverse p).erase o else s.reverse p }

/-- Run a sequence of graph operations from the empty graph. -/
def PGState.run (ops : List PGOp) : PGState :=
  ops.foldl
    (fun s op => match op with
      | PGOp.add o ps => s.addOp o ps
      | PGOp.remove o => s.removeOp o)
    PGState.init

/-- The numbered cells still in play for `AttemptUnoDirector.endgame_insight`
(`num_flags_left` truthy, i.e. nonzero). -/
def in_play_numbered (b : Board) : List Cell :=
  ((ascCells b.cellsAll).filter fun c => decide (b.is_number c)).filter
    fun c => decide (b.num_flags_left c ≠ 0)

/-- The `shared` set `endgame_insight` computes:
`reduce(operator.and_, in_play_unrevealed, set())` — a left fold of set
intersection whose initial value is the EMPTY set. -/
def endgame_shared (b : Board) : Finset Cell :=
  ((in_play_numbered b).map (fun c => b.unrevealedNbrs c)).foldl
    (fun acc s => acc ∩ s) ∅

/-- The plans yielded by `AttemptUnoDirector.endgame_insight`: flag the
shared cells when the mines-left count equals their number, otherwise
reveal them when the non-shared unrevealed count equals mines-left. -/
def endgame_insight (b : Board) (num_mines_left : ℤ) : List (List (String × Cell)) :=
  let shared := endgame_shared b
  if num_mines_left = (shared.card : ℤ) then
    [(ascCells shared).map fun c => ("right_click", c)]
  else if (b.unrevealedCells.card : ℤ) - (shared.card : ℤ) = num_mines_left then
    [(ascCells shared).map fun c => ("click", c)]
  else []

/-- The intersection the endgame rule is specified to act on: the common
unrevealed neighbors of all in-play numbered cells (spec-side definition,
for comparison with `endgame_shared`). -/
def spec_shared (b : Board) : Finset Cell :=
  match in_play_numbered b with
  | [] => ∅
  | c :: rest => rest.foldl (fun acc c' => acc ∩ b.unrevealedNbrs c') (b.unrevealedNbrs c)

/-- The numbered cells of the board. -/
def Board.numberedCells (b : Board) : Finset Cell :=
  b.cellsAll.filter (fun c => b.is_number c)

lemma getCell_eq_some {b : Board} {x y : ℤ} {q : Cell} :
    b.getCell x y = some q ↔
      0 ≤ x ∧ x < b.width ∧ 0 ≤ y ∧ y < b.height ∧ (q : ℤ) = x + y * b.width := by
  unfold Board.getCell
  split_ifs with h
  · obtain ⟨hx0, hxw, hy0, hyh⟩ := h
    simp only [Option.some.injEq]
    constructor
    · rintro rfl
      refine ⟨hx0, hxw, hy0, hyh, ?_⟩
      push_cast
      rw [Int.toNat_of_nonneg hx0, Int.toNat_of_nonneg hy0]
    · rintro ⟨-, -, -, -, hq⟩
      have hq' : (q : ℤ) = (x.toNat : ℤ) + (y.toNat : ℤ) * b.width := by
        rw [Int.toNat_of_nonneg hx0, Int.toNat_of_nonneg hy0]; exact hq
      exact_mod_cast hq'.symm
  · constructor
    · intro hc; cases hc
    · rintro ⟨h1, h2, h3, h4, -⟩
      exact absurd ⟨h1, h2, h3, h4⟩ h

lemma mem_cellsAll {b : Board} {c : Cell} : c ∈ b.cellsAll ↔ c < b.width * b.height := by
  simp [Board.cellsAll]

lemma width_pos_of_mem {b : Board} {c : Cell} (h : c ∈ b.cellsAll) : 0 < b.width := by
  rw [mem_cellsAll] at h
  by_contra hw
  simp only [not_lt, Nat.le_zero] at hw
  rw [hw, Nat.zero_mul] at h
  exact Nat.not_lt_zero c h

lemma coords_spec {b : Board} {c : Cell} (h : c ∈ b.cellsAll) :
    b.xOf c < b.width ∧ b.yOf c < b.height ∧ c = b.xOf c + b.yOf c * b.width := by
  have hw := width_pos_of_mem h
  rw [mem_cellsAll] at h
  refine ⟨Nat.mod_lt _ hw, ?_, ?_⟩
  · rw [Board.yOf, Nat.div_lt_iff_lt_mul hw]
    rwa [Nat.mul_comm] at h
  · exact (Nat.mod_add_div' c b.width).symm

lemma encode_coords {b : Board} {x y : ℕ} (hx : x < b.width) :
    b.xOf (x + y * b.width) = x ∧ b.yOf (x + y * b.width) = y := by
  constructor
  · rw [Board.xOf, Nat.add_mul_mod_self_right, Nat.mod_eq_of_lt hx]
  · rw [Board.yOf, Nat.add_mul_div_right _ _ (by omega), Nat.div_eq_of_lt hx, Nat.zero_add]

/-- Membership in the neighbor set, characterized by coordinates: `q` is a
neighbor of `c` exactly when `q` is on the board and the coordinate offset
from `c` to `q` is one of the eight deltas. -/
lemma mem_neighbors {b : Board} {c q : Cell} :
    q ∈ b.neighbors c ↔
      q ∈ b.cellsAll ∧
        ((b.xOf q : ℤ) - b.xOf c, (b.yOf q : ℤ) - b.yOf c) ∈ neighborDeltas := by
  unfold Board.neighbors
  rw [List.mem_toFinset, List.mem_filterMap]
  constructor
  · rintro ⟨d, hd, hsome⟩
    rw [getCell_eq_some] at hsome
    obtain ⟨hx0, hxw, hy0, hyh, hq⟩ := hsome
    have hqmem : q ∈ b.cellsAll := by
      rw [mem_cellsAll]
      have hq' : (q : ℤ) < b.width * b.height := by
        have e2 : (b.yOf c : ℤ) + d.2 ≤ (b.height : ℤ) - 1 := by omega
        have e3 : ((b.yOf c : ℤ) + d.2) * b.width ≤ ((b.height : ℤ) - 1) * b.width :=
          mul_le_mul_of_nonneg_right e2 (by positivity)
        have e4 : ((b.height : ℤ) - 1) * b.width = (b.width : ℤ) * b.height - b.width := by
          ring
        linarith [hq, e3, e4, hxw]
      exact_mod_cast hq'
    refine ⟨hqmem, ?_⟩
    have hw : 0 < b.width := width_pos_of_mem hqmem
    -- recover the coordinates of q from its encoding
    have hqnat : q = ((b.xOf c : ℤ) + d.1).toNat + ((b.yOf c : ℤ) + d.2).toNat * b.width := by
      have hcast : (q : ℤ) =
          ((((b.xOf c : ℤ) + d.1).toNat : ℤ)) + ((((b.yOf c : ℤ) + d.2).toNat : ℤ)) * b.width := by
        rw [Int.toNat_of_nonneg hx0, Int.toNat_of_nonneg hy0]; exact hq
      exact_mod_cast hcast
    have hxlt : ((b.xOf c : ℤ) + d.1).toNat < b.width := by omega
    obtain ⟨hx, hy⟩ := encode_coords (b := b) (y := ((b.yOf c : ℤ) + d.2).toNat) hxlt
    rw [hqnat, hx, hy]
    have hd1 : (((((b.xOf c : ℤ) + d.1).toNat : ℤ)) - b.xOf c) = d.1 := by omega
    have hd2 : (((((b.yOf c : ℤ) + d.2).toNat : ℤ)) - b.yOf c) = d.2 := by omega
    rw [hd1, hd2]
    exact hd
  · rintro ⟨hqmem, hd⟩
    refine ⟨((b.xOf q : ℤ) - b.xOf c, (b.yOf q : ℤ) - b.yOf c), hd, ?_⟩
    rw [getCell_eq_some]
    dsimp only
    obtain ⟨hxq, hyq, henc⟩ := coords_spec hqmem
    have hw : 0 < b.width := width_pos_of_mem hqmem
    refine ⟨by omega, by omega, by omega, by omega, ?_⟩
    have henc' : (q : ℤ) = (b.xOf q : ℤ) + (b.yOf q : ℤ) * b.width := by exact_mod_cast henc
    rw [henc']; ring

lemma neighbors_subset_cellsAll {b : Board} {c : Cell} : b.neighbors c ⊆ b.cellsAll :=
  fun _ hq => (mem_neighbors.1 hq).1

lemma neighborDeltas_neg {d : ℤ × ℤ} (h : d ∈ neighborDeltas) :
    (-d.1, -d.2) ∈ neighborDeltas := by
  fin_cases h <;> decide

/-- Neighborhood is symmetric between on-board cells. -/
lemma mem_neighbors_symm {b : Board} {c q : Cell} (hc : c ∈ b.cellsAll)
    (h : q ∈ b.neighbors c) : c ∈ b.neighbors q := by
  rw [mem_neighbors] at h ⊢
  obtain ⟨hq, hd⟩ := h
  refine ⟨hc, ?_⟩
  have := neighborDeltas_neg hd
  simpa using this

lemma mem_unrevealedNbrs {b : Board} {c q : Cell} :
    q ∈ b.unrevealedNbrs c ↔ q ∈ b.neighbors c ∧ b.is_unrevealed q := by
  simp [Board.unrevealedNbrs]

lemma mem_numberNbrs {b : Board} {c q : Cell} :
    q ∈ b.numberNbrs c ↔ q ∈ b.neighbors c ∧ b.is_number q := by
  simp [Board.numberNbrs]

lemma mem_unrevealedCells {b : Board} {c : Cell} :
    c ∈ b.unrevealedCells ↔ c ∈ b.cellsAll ∧ b.is_unrevealed c := by
  simp [Board.unrevealedCells]

lemma mem_numberedCells {b : Board} {c : Cell} :
    c ∈ b.numberedCells ↔ c ∈ b.cellsAll ∧ b.is_number c := by
  simp [Board.numberedCells]

lemma not_unrevealed_of_number {b : Board} {c : Cell} (h : b.is_number c) :
    ¬ b.is_unrevealed c := by
  intro h9
  rw [Board.is_unrevealed] at h9
  rw [Board.is_number, h9] at h
  omega

/-- The step relation of the flood fill is symmetric. -/
lemma linked_symm {b : Board} : Symmetric (linked b) := by
  rintro p q ⟨hp, hcase⟩
  rcases hcase with ⟨hpu, hqn⟩ | ⟨hpk, hqu⟩
  · rw [mem_numberNbrs] at hqn
    obtain ⟨hqnbr, hqnum⟩ := hqn
    have hqcells : q ∈ b.cellsAll := neighbors_subset_cellsAll hqnbr
    refine ⟨hqcells, Or.inr ⟨Or.inr hqnum, ?_⟩⟩
    rw [mem_unrevealedNbrs]
    exact ⟨mem_neighbors_symm hp hqnbr, hpu⟩
  · rw [mem_unrevealedNbrs] at hqu
    obtain ⟨hqnbr, hqunrev⟩ := hqu
    have hqcells : q ∈ b.cellsAll := neighbors_subset_cellsAll hqnbr
    rcases hpk with hpu | hpn
    · refine ⟨hqcells, Or.inr ⟨Or.inl hqunrev, ?_⟩⟩
      rw [mem_unrevealedNbrs]
      exact ⟨mem_neighbors_symm hp hqnbr, hpu⟩
    · refine ⟨hqcells, Or.inl ⟨hqunrev, ?_⟩⟩
      rw [mem_numberNbrs]
      exact ⟨mem_neighbors_symm hp hqnbr, hpn⟩

lemma Reach.symm {b : Board} {s c : Cell} (h : Reach b s c) : Reach b c s :=
  Relation.ReflTransGen.symmetric linked_symm h

lemma Reach.trans {b : Board} {s c t : Cell} (h1 : Reach b s c) (h2 : Reach b c t) :
    Reach b s t :=
  Relation.ReflTransGen.trans h1 h2

/-- Main invariant of the flood-fill loop `trace_go`.  Given the loop
invariants relating the walked set, the accumulators and the two queues,
the final pair `(unrevealed, edges)` of the trace (with enough fuel)
absorbs the queues, stays inside the unrevealed/numbered cells, contains
only cells reachable from `start`, is closed under `linked` steps, and
every edge is a numbered neighbor of some unrevealed cell of the trace. -/
lemma trace_go_spec (b : Board) (start : Cell) :
    ∀ (fuel : ℕ) (walked unrevealed edges uq nq : Finset Cell),
      walked = unrevealed ∪ edges →
      Disjoint (uq ∪ nq) walked →
      unrevealed ∪ uq ⊆ b.unrevealedCells →
      edges ∪ nq ⊆ b.numberedCells →
      (∀ p ∈ walked, ∀ q, linked b p q → q ∈ walked ∪ (uq ∪ nq)) →
      (∀ x ∈ walked ∪ (uq ∪ nq), Reach b start x) →
      (∀ n ∈ edges ∪ nq, ∃ u ∈ unrevealed ∪ uq, n ∈ b.numberNbrs u) →
      (b.cellsAll \ walked).card + 1 ≤ fuel →
      unrevealed ∪ uq ⊆ (trace_go b fuel walked unrevealed edges uq nq).1 ∧
      edges ∪ nq ⊆ (trace_go b fuel walked unrevealed edges uq nq).2 ∧
      (trace_go b fuel walked unrevealed edges uq nq).1 ⊆ b.unrevealedCells ∧
      (trace_go b fuel walked unrevealed edges uq nq).2 ⊆ b.numberedCells ∧
      (∀ x ∈ (trace_go b fuel walked unrevealed edges uq nq).1 ∪
          (trace_go b fuel walked unrevealed edges uq nq).2, Reach b start x) ∧
      (∀ p ∈ (trace_go b fuel walked unrevealed edges uq nq).1 ∪
          (trace_go b fuel walked unrevealed edges uq nq).2, ∀ q, linked b p q →
          q ∈ (trace_go b fuel walked unrevealed edges uq nq).1 ∪
            (trace_go b fuel walked unrevealed edges uq nq).2) ∧
      (∀ n ∈ (trace_go b fuel walked unrevealed edges uq nq).2,
          ∃ u ∈ (trace_go b fuel walked unrevealed edges uq nq).1, n ∈ b.numberNbrs u) := by
  intro fuel
  induction fuel with
  | zero =>
    intro walked unrevealed edges uq nq _ _ _ _ _ _ _ hfuel
    omega
  | succ fuel ih =>
    intro walked unrevealed edges uq nq h1 h2 h3 h4 h5 h6 h7 hfuel
    by_cases hq : uq = ∅ ∧ nq = ∅
    · obtain ⟨rfl, rfl⟩ := hq
      simp only [trace_go, if_pos (And.intro rfl rfl)]
      simp only [Finset.union_empty] at h3 h4 h5 h6 h7 ⊢
      rw [h1] at h5 h6
      exact ⟨Finset.Subset.refl _, Finset.Subset.refl _, h3, h4, h6, h5, h7⟩
    · simp only [trace_go, if_neg hq]
      set walked2 := walked ∪ (uq ∪ nq) with hwalked2
      set nq2 := (uq.biUnion fun c => b.numberNbrs c) \ walked2 with hnq2
      set uq2 := ((uq ∪ nq).biUnion fun c => b.unrevealedNbrs c) \ walked2 with huq2
      -- the invariants for the recursive call
      have n1 : walked2 = (unrevealed ∪ uq) ∪ (edges ∪ nq) := by
        rw [hwalked2, h1]
        ext x
        simp only [Finset.mem_union]
        tauto
      have n2 : Disjoint (uq2 ∪ nq2) walked2 :=
        Finset.disjoint_union_left.2 ⟨Finset.sdiff_disjoint, Finset.sdiff_disjoint⟩
      have huq2sub : uq2 ⊆ b.unrevealedCells := by
        intro x hx
        rw [huq2, Finset.mem_sdiff] at hx
        obtain ⟨hx, -⟩ := hx
        rw [Finset.mem_biUnion] at hx
        obtain ⟨c, -, hx⟩ := hx
        rw [mem_unrevealedNbrs] at hx
        rw [mem_unrevealedCells]
        exact ⟨neighbors_subset_cellsAll hx.1, hx.2⟩
      have hnq2sub : nq2 ⊆ b.numberedCells := by
        intro x hx
        rw [hnq2, Finset.mem_sdiff] at hx
        obtain ⟨hx, -⟩ := hx
        rw [Finset.mem_biUnion] at hx
        obtain ⟨c, -, hx⟩ := hx
        rw [mem_numberNbrs] at hx
        rw [mem_numberedCells]
        exact ⟨neighbors_subset_cellsAll hx.1, hx.2⟩
      have n3 : (unrevealed ∪ uq) ∪ uq2 ⊆ b.unrevealedCells :=
        Finset.union_subset h3 huq2sub
      have n4 : (edges ∪ nq) ∪ nq2 ⊆ b.numberedCells :=
        Finset.union_subset h4 hnq2sub
      have huqcells : uq ⊆ b.cellsAll := fun x hx =>
        (mem_unrevealedCells.1 (h3 (Finset.mem_union_right _ hx))).1
      have hnqcells : nq ⊆ b.cellsAll := fun x hx =>
        (mem_numberedCells.1 (h4 (Finset.mem_union_right _ hx))).1
      have n5 : ∀ p ∈ walked2, ∀ q, linked b p q → q ∈ walked2 ∪ (uq2 ∪ nq2) := by
        intro p hp q hlink
        rw [hwalked2, Finset.mem_union] at hp
        rcases hp with hp | hp
        · have := h5 p hp q hlink
          exact Finset.mem_union_left _ (by rw [hwalked2]; exact this)
        · -- p comes from one of the two queues
          by_cases hqw : q ∈ walked2
          · exact Finset.mem_union_left _ hqw
          obtain ⟨-, hcase⟩ := hlink
          rw [Finset.mem_union] at hp
          rcases hcase with ⟨hpu, hqn⟩ | ⟨hpk, hqu⟩
          · -- q is a numbered neighbor of the unrevealed p
            rcases hp with hp | hp
            · refine Finset.mem_union_right _ (Finset.mem_union_right _ ?_)
              rw [hnq2, Finset.mem_sdiff]
              exact ⟨Finset.mem_biUnion.2 ⟨p, hp, hqn⟩, hqw⟩
            · exact absurd hpu (not_unrevealed_of_number
                (mem_numberedCells.1 (h4 (Finset.mem_union_right _ hp))).2)
          · -- q is an unrevealed neighbor of p
            refine Finset.mem_union_right _ (Finset.mem_union_left _ ?_)
            rw [huq2, Finset.mem_sdiff]
            exact ⟨Finset.mem_biUnion.2 ⟨p, Finset.mem_union.2 hp, hqu⟩, hqw⟩
      have n6 : ∀ x ∈ walked2 ∪ (uq2 ∪ nq2), Reach b start x := by
        intro x hx
        rw [Finset.mem_union] at hx
        rcases hx with hx | hx
        · exact h6 x (by rw [hwalked2] at hx; exact hx)
        rw [Finset.mem_union] at hx
        rcases hx with hx | hx
        · rw [huq2, Finset.mem_sdiff] at hx
          obtain ⟨hx, -⟩ := hx
          rw [Finset.mem_biUnion] at hx
          obtain ⟨c, hc, hx⟩ := hx
          have hreach : Reach b start c :=
            h6 c (Finset.mem_union_right _ hc)
          refine hreach.tail ?_
          rw [Finset.mem_union] at hc
          rcases hc with hc | hc
          · exact ⟨huqcells hc,
              Or.inr ⟨Or.inl (mem_unrevealedCells.1 (h3 (Finset.mem_union_right _ hc))).2, hx⟩⟩
          · exact ⟨hnqcells hc,
              Or.inr ⟨Or.inr (mem_numberedCells.1 (h4 (Finset.mem_union_right _ hc))).2, hx⟩⟩
        · rw [hnq2, Finset.mem_sdiff] at hx
          obtain ⟨hx, -⟩ := hx
          rw [Finset.mem_biUnion] at hx
          obtain ⟨c, hc, hx⟩ := hx
          have hreach : Reach b start c :=
            h6 c (Finset.mem_union_right _ (Finset.mem_union_left _ hc))
          refine hreach.tail ?_
          exact ⟨huqcells hc,
            Or.inl ⟨(mem_unrevealedCells.1 (h3 (Finset.mem_union_right _ hc))).2, hx⟩⟩
      have n7 : ∀ n ∈ (edges ∪ nq) ∪ nq2, ∃ u ∈ (unrevealed ∪ uq) ∪ uq2, n ∈ b.numberNbrs u := by
        intro n hn
        rw [Finset.mem_union] at hn
        rcases hn with hn | hn
        · obtain ⟨u, hu, hnbr⟩ := h7 n hn
          exact ⟨u, Finset.mem_union_left _ hu, hnbr⟩
        · rw [hnq2, Finset.mem_sdiff] at hn
          obtain ⟨hn, -⟩ := hn
          rw [Finset.mem_biUnion] at hn
          obtain ⟨u, hu, hnbr⟩ := hn
          exact ⟨u, Finset.mem_union_left _ (Finset.mem_union_right _ hu), hnbr⟩
      have n8 : (b.cellsAll \ walked2).card + 1 ≤ fuel := by
        have hne : (uq ∪ nq).Nonempty := by
          rcases Finset.eq_empty_or_nonempty uq with huq | huq
          · rcases Finset.eq_empty_or_nonempty nq with hnq | hnq
            · exact absurd ⟨huq, hnq⟩ hq
            · exact Finset.Nonempty.mono Finset.subset_union_right hnq
          · exact Finset.Nonempty.mono Finset.subset_union_left huq
        obtain ⟨x, hx⟩ := hne
        have hxcells : x ∈ b.cellsAll := by
          rw [Finset.mem_union] at hx
          rcases hx with hx | hx
          · exact huqcells hx
          · exact hnqcells hx
        have hxnw : x ∉ walked := Finset.disjoint_left.1 h2 hx
        have hsub : b.cellsAll \ walked2 ⊆ b.cellsAll \ walked := by
          apply Finset.sdiff_subset_sdiff (Finset.Subset.refl _)
          rw [hwalked2]
          exact Finset.subset_union_left
        have hss : b.cellsAll \ walked2 ⊂ b.cellsAll \ walked := by
          rw [Finset.ssubset_iff_of_subset hsub]
          refine ⟨x, Finset.mem_sdiff.2 ⟨hxcells, hxnw⟩, ?_⟩
          rw [Finset.mem_sdiff, hwalked2]
          intro hcon
          exact hcon.2 (Finset.mem_union_right _ hx)
        have := Finset.card_lt_card hss
        omega
      obtain ⟨k1, k2, k3, k4, k5, k6, k7⟩ :=
        ih walked2 (unrevealed ∪ uq) (edges ∪ nq) uq2 nq2 n1 n2 n3 n4 n5 n6 n7 n8
      refine ⟨?_, ?_, k3, k4, k5, k6, k7⟩
      · exact fun x hx => k1 (Finset.mem_union_left _ hx)
      · exact fun x hx => k2 (Finset.mem_union_left _ hx)

/-- Characterization of a traced system: its unrevealed set is exactly the
unrevealed cells reachable from the start cell, and each edge is a numbered
cell adjacent to an unrevealed cell of the system. -/
lemma System_trace_spec (b : Board) (start : Cell) (ub : ℤ)
    (hstart : start ∈ b.unrevealedCells) :
    (∀ x, x ∈ (System_trace b start ub).unrevealed ↔
        x ∈ b.unrevealedCells ∧ Reach b start x) ∧
    (System_trace b start ub).edges ⊆ b.numberedCells ∧
    (∀ n ∈ (System_trace b start ub).edges,
        ∃ u ∈ (System_trace b start ub).unrevealed, n ∈ b.numberNbrs u) := by
  have h0 : (∅ : Finset Cell) = ∅ ∪ ∅ := by simp
  have h2 : Disjoint (({start} : Finset Cell) ∪ ∅) (∅ : Finset Cell) :=
    Finset.disjoint_empty_right _
  have h3 : (∅ : Finset Cell) ∪ {start} ⊆ b.unrevealedCells := by
    simp only [Finset.empty_union, Finset.singleton_subset_iff]
    exact hstart
  have h4 : (∅ : Finset Cell) ∪ ∅ ⊆ b.numberedCells := by simp
  have h5 : ∀ p ∈ (∅ : Finset Cell), ∀ q, linked b p q →
      q ∈ (∅ : Finset Cell) ∪ ({start} ∪ ∅) := by simp
  have h6 : ∀ x ∈ (∅ : Finset Cell) ∪ (({start} : Finset Cell) ∪ ∅), Reach b start x := by
    intro x hx
    simp only [Finset.empty_union, Finset.union_empty, Finset.mem_singleton] at hx
    subst hx
    exact Relation.ReflTransGen.refl
  have h7 : ∀ n ∈ (∅ : Finset Cell) ∪ ∅,
      ∃ u ∈ (∅ : Finset Cell) ∪ {start}, n ∈ b.numberNbrs u := by simp
  have h8 : (b.cellsAll \ ∅).card + 1 ≤ b.cellsAll.card + 1 := by
    rw [Finset.sdiff_empty]
  obtain ⟨k1, k2, k3, k4, k5, k6, k7⟩ :=
    trace_go_spec b start (b.cellsAll.card + 1) ∅ ∅ ∅ {start} ∅ h0 h2 h3 h4 h5 h6 h7 h8
  have hU : (System_trace b start ub).unrevealed =
      (trace_go b (b.cellsAll.card + 1) ∅ ∅ ∅ {start} ∅).1 := rfl
  have hE : (System_trace b start ub).edges =
      (trace_go b (b.cellsAll.card + 1) ∅ ∅ ∅ {start} ∅).2 := rfl
  rw [hU, hE]
  set r := trace_go b (b.cellsAll.card + 1) ∅ ∅ ∅ {start} ∅ with hr
  have hcomplete : ∀ x, Reach b start x → x ∈ r.1 ∪ r.2 := by
    intro x hx
    induction hx with
    | refl =>
      refine Finset.mem_union_left _ (k1 ?_)
      simp
    | tail hstep hlink ih => exact k6 _ ih _ hlink
  refine ⟨?_, k4, k7⟩
  intro x
  constructor
  · intro hx
    exact ⟨k3 hx, k5 x (Finset.mem_union_left _ hx)⟩
  · rintro ⟨hxu, hxr⟩
    have := hcomplete x hxr
    rw [Finset.mem_union] at this
    rcases this with h | h
    · exact h
    · exact absurd (mem_unrevealedCells.1 hxu).2
        (not_unrevealed_of_number (mem_numberedCells.1 (k4 h)).2)

/-- A cell belongs to the system traced from itself. -/
lemma mem_own_trace {b : Board} {c : Cell} (hc : c ∈ b.unrevealedCells) (ub : ℤ) :
    c ∈ (System_trace b c ub).unrevealed :=
  ((System_trace_spec b c ub hc).1 c).2 ⟨hc, Relation.ReflTransGen.refl⟩

/-- Invariant-carrying specification of the worker of `find_systems`:
over a component-closed set of unrevealed cells with enough fuel, the
emitted systems have pairwise disjoint unrevealed sets that exactly cover
the input set, and every edge of every system is a numbered cell adjacent
to an unrevealed cell of its system. -/
lemma find_systems_go_spec (b : Board) (ub : ℤ) (pick : Finset Cell → Cell)
    (hpick : ∀ s : Finset Cell, s ≠ ∅ → pick s ∈ s) :
    ∀ (fuel : ℕ) (s : Finset Cell),
      s ⊆ b.unrevealedCells →
      (∀ c ∈ s, ∀ x ∈ b.unrevealedCells, Reach b c x → x ∈ s) →
      s.card + 1 ≤ fuel →
      (∀ sys ∈ find_systems_go b ub pick fuel s, sys.unrevealed ⊆ s) ∧
      (∀ c ∈ s, ∃ sys ∈ find_systems_go b ub pick fuel s, c ∈ sys.unrevealed) ∧
      List.Pairwise (fun s1 s2 => Disjoint s1.unrevealed s2.unrevealed)
        (find_systems_go b ub pick fuel s) ∧
      (∀ sys ∈ find_systems_go b ub pick fuel s, ∀ e ∈ sys.edges,
          b.is_number e ∧ ∃ u ∈ sys.unrevealed, e ∈ b.neighbors u) := by
  intro fuel
  induction fuel with
  | zero =>
    intro s _ _ hfuel
    omega
  | succ fuel ih =>
    intro s hsub hclosed hfuel
    by_cases hs : s ≠ ∅
    · simp only [find_systems_go, if_pos hs]
      have hpicks : pick s ∈ s := hpick s hs
      have hpicku : pick s ∈ b.unrevealedCells := hsub hpicks
      obtain ⟨hmem, hedgesub, hedgewit⟩ := System_trace_spec b (pick s) ub hpicku
      set sys := System_trace b (pick s) ub with hsys
      have hsyssub : sys.unrevealed ⊆ s := by
        intro x hx
        rw [hmem x] at hx
        exact hclosed (pick s) hpicks x hx.1 hx.2
      have hsub' : s \ sys.unrevealed ⊆ b.unrevealedCells :=
        fun x hx => hsub (Finset.mem_sdiff.1 hx).1
      have hclosed' : ∀ c ∈ s \ sys.unrevealed, ∀ x ∈ b.unrevealedCells,
          Reach b c x → x ∈ s \ sys.unrevealed := by
        intro c hc x hxu hreach
        rw [Finset.mem_sdiff] at hc
        obtain ⟨hcs, hcn⟩ := hc
        rw [Finset.mem_sdiff]
        refine ⟨hclosed c hcs x hxu hreach, ?_⟩
        intro hxsys
        apply hcn
        rw [hmem x] at hxsys
        rw [hmem c]
        exact ⟨hsub hcs, hxsys.2.trans hreach.symm⟩
      have hfuel' : (s \ sys.unrevealed).card + 1 ≤ fuel := by
        have hlt : (s \ sys.unrevealed).card < s.card := by
          apply Finset.card_lt_card
          rw [Finset.ssubset_iff_of_subset Finset.sdiff_subset]
          refine ⟨pick s, hpicks, ?_⟩
          rw [Finset.mem_sdiff]
          push_neg
          intro _
          exact mem_own_trace hpicku ub
        omega
      obtain ⟨j1, j2, j3, j4⟩ := ih (s \ sys.unrevealed) hsub' hclosed' hfuel'
      refine ⟨?_, ?_, ?_, ?_⟩
      · intro t ht
        rw [List.mem_cons] at ht
        rcases ht with rfl | ht
        · exact hsyssub
        · exact fun x hx => (Finset.mem_sdiff.1 (j1 t ht hx)).1
      · intro c hc
        by_cases hcsys : c ∈ sys.unrevealed
        · exact ⟨sys, List.mem_cons_self _ _, hcsys⟩
        · obtain ⟨t, ht, hct⟩ := j2 c (Finset.mem_sdiff.2 ⟨hc, hcsys⟩)
          exact ⟨t, List.mem_cons_of_mem _ ht, hct⟩
      · rw [List.pairwise_cons]
        refine ⟨?_, j3⟩
        intro t ht
        have := j1 t ht
        rw [Finset.disjoint_right]
        intro x hxt hxsys
        exact (Finset.mem_sdiff.1 (this hxt)).2 hxsys
      · intro t ht e he
        rw [List.mem_cons] at ht
        rcases ht with rfl | ht
        · obtain ⟨u, hu, hnbr⟩ := hedgewit e he
          rw [mem_numberNbrs] at hnbr
          exact ⟨(mem_numberedCells.1 (hedgesub he)).2, u, hu, hnbr.1⟩
        · exact j4 t ht e he
    · simp only [find_systems_go, if_neg hs]
      push_neg at hs
      subst hs
      simp

lemma soundFor_lower_le_upper {m : Finset Cell} {g : Group} (h : soundFor m g) :
    g.lower_bound ≤ g.upper_bound :=
  le_trans h.1 h.2

/-- A group of probability 0 that is in-bounds and sound for `m` contains no
mine of `m`. -/
lemma prob_zero_safe {g : Group} {m : Finset Cell} (hwf : 0 ≤ g.lower_bound)
    (hsound : soundFor m g) (hp : g.probability = 0) : ∀ c ∈ g.cells, c ∉ m := by
  have hempty : (m ∩ g.cells).card = 0 := by
    unfold Group.probability at hp
    split_ifs at hp with h1 h2 h3
    · -- lower = upper = 0
      have := hsound.2
      omega
    · -- probability 1 branch contradicts hp
      exact absurd hp one_ne_zero
    · -- empty cell set
      have : m ∩ g.cells ⊆ g.cells := Finset.inter_subset_right
      have := Finset.card_le_card this
      omega
    · -- midpoint branch: (L/n + U/n)/2 = 0 forces L + U = 0
      have hn : ((g.cells.card : ℚ)) ≠ 0 := by
        exact_mod_cast h3
      have hLU : (g.lower_bound : ℚ) + g.upper_bound = 0 := by
        field_simp at hp
        linarith [hp]
      have hLU' : g.lower_bound + g.upper_bound = 0 := by exact_mod_cast hLU
      have := hsound.1
      have := hsound.2
      omega
  intro c hc hcm
  have : c ∈ m ∩ g.cells := Finset.mem_inter.2 ⟨hcm, hc⟩
  rw [Finset.card_eq_zero] at hempty
  rw [hempty] at this
  exact absurd this (Finset.not_mem_empty c)

/-- A group of probability 1 that is in-bounds and sound for `m` consists
entirely of mines of `m`. -/
lemma prob_one_mine {g : Group} {m : Finset Cell}
    (hwf : g.upper_bound ≤ (g.cells.card : ℤ)) (hsound : soundFor m g)
    (hp : g.probability = 1) : ∀ c ∈ g.cells, c ∈ m := by
  have hfull : (g.cells.card : ℤ) ≤ ((m ∩ g.cells).card : ℤ) := by
    unfold Group.probability at hp
    split_ifs at hp with h1 h2 h3
    · exact absurd hp zero_ne_one
    · have := hsound.1
      omega
    · exact absurd hp zero_ne_one
    · -- midpoint branch: (L/n + U/n)/2 = 1 forces L + U = 2n
      have hn : ((g.cells.card : ℚ)) ≠ 0 := by
        exact_mod_cast h3
      have hLU : (g.lower_bound : ℚ) + g.upper_bound = 2 * g.cells.card := by
        field_simp at hp
        linarith [hp]
      have hLU' : g.lower_bound + g.upper_bound = 2 * (g.cells.card : ℤ) := by
        exact_mod_cast hLU
      have := hsound.1
      have := hsound.2
      omega
  have hsub : m ∩ g.cells ⊆ g.cells := Finset.inter_subset_right
  have hcardle : g.cells.card ≤ (m ∩ g.cells).card := by exact_mod_cast hfull
  have heq : m ∩ g.cells = g.cells := Finset.eq_of_subset_of_card_le hsub hcardle
  intro c hc
  have : c ∈ m ∩ g.cells := by rw [heq]; exact hc
  exact (Finset.mem_inter.1 this).1

lemma foldl_max_mem (l : List ℚ) (a : ℚ) : l.foldl max a = a ∨ l.foldl max a ∈ l := by
  induction l generalizing a with
  | nil => exact Or.inl rfl
  | cons x t ih =>
    rcases ih (max a x) with h | h
    · rcases max_choice a x with hx | hx
      · exact Or.inl (by rw [List.foldl_cons, h, hx])
      · exact Or.inr (by rw [List.foldl_cons, h, hx]; exact List.mem_cons_self x t)
    · exact Or.inr (List.mem_cons_of_mem x h)

lemma mem_ascCells {s : Finset Cell} {c : Cell} : c ∈ ascCells s ↔ c ∈ s := by
  unfold ascCells
  rw [List.mem_filter]
  constructor
  · rintro ⟨-, h⟩
    simpa using h
  · intro h
    refine ⟨?_, by simpa using h⟩
    rw [List.mem_range]
    exact Nat.lt_succ_of_le (Finset.le_sup (f := id) h)

lemma mem_all_cells {groups : List Group} {c : Cell} :
    c ∈ all_cells groups ↔ ∃ g ∈ groups, c ∈ g.cells := by
  induction groups with
  | nil => simp [all_cells]
  | cons g t ih =>
    simp only [all_cells, List.foldr_cons, Finset.mem_union, List.mem_cons]
    rw [show t.foldr (fun g acc => g.cells ∪ acc) ∅ = all_cells t from rfl, ih]
    constructor
    · rintro (h | ⟨g', hg', hc⟩)
      · exact ⟨g, Or.inl rfl, h⟩
      · exact ⟨g', Or.inr hg', hc⟩
    · rintro ⟨g', rfl | hg', hc⟩
      · exact Or.inl hc
      · exact Or.inr ⟨g', hg', hc⟩

/-- The probability `flatten_groups` computes for a referenced cell is the
probability of some group of the collection containing that cell. -/
lemma flatten_prob_attained {groups : List Group} {c : Cell}
    (hc : c ∈ all_cells groups) :
    ∃ g ∈ groups, c ∈ g.cells ∧ g.probability = flatten_prob groups c := by
  obtain ⟨g0, hg0, hcg0⟩ := mem_all_cells.1 hc
  have hg0c : g0 ∈ groups.filter fun g => decide (c ∈ g.cells) := by
    rw [List.mem_filter]
    exact ⟨hg0, by simpa using hcg0⟩
  have hmem : ∀ g ∈ groups.filter fun g => decide (c ∈ g.cells),
      g ∈ groups ∧ c ∈ g.cells := by
    intro g hg
    rw [List.mem_filter] at hg
    exact ⟨hg.1, by simpa using hg.2⟩
  simp only [flatten_prob]
  cases hconf : (groups.filter fun g => decide (c ∈ g.cells)).filter
      (fun g => decide g.is_confident) with
  | cons g tl =>
    have hgin : g ∈ (groups.filter fun g => decide (c ∈ g.cells)) := by
      have : g ∈ (groups.filter fun g => decide (c ∈ g.cells)).filter
          (fun g => decide g.is_confident) := by
        rw [hconf]; exact List.mem_cons_self g tl
      exact (List.mem_filter.1 this).1
    exact ⟨g, (hmem g hgin).1, (hmem g hgin).2, rfl⟩
  | nil =>
    cases hcont2 : groups.filter fun g => decide (c ∈ g.cells) with
    | nil => rw [hcont2] at hg0c; exact absurd hg0c (List.not_mem_nil g0)
    | cons g rest =>
      rcases foldl_max_mem (rest.map Group.probability) g.probability with h | h
      · have hg : g ∈ groups.filter fun g => decide (c ∈ g.cells) := by
          rw [hcont2]; exact List.mem_cons_self g rest
        exact ⟨g, (hmem g hg).1, (hmem g hg).2, h.symm⟩
      · rw [List.mem_map] at h
        obtain ⟨g', hg', hpg'⟩ := h
        have hg'c : g' ∈ groups.filter fun g => decide (c ∈ g.cells) := by
          rw [hcont2]; exact List.mem_cons_of_mem g hg'
        exact ⟨g', (hmem g' hg'c).1, (hmem g' hg'c).2, hpg'⟩

/-- Every move emitted by `split_moves` is a flag of a probability-1 cell or
a reveal of a probability-0 cell, the cell being referenced by some group. -/
lemma split_moves_spec {groups : List Group} {mv : String × Cell}
    (hmv : mv ∈ (split_moves groups).1) :
    mv.2 ∈ all_cells groups ∧
      ((mv.1 = "right_click" ∧ flatten_prob groups mv.2 = 1) ∨
       (mv.1 = "click" ∧ flatten_prob groups mv.2 = 0)) := by
  have key : ∀ l : List (ℚ × Cell),
      mv ∈ (l.foldr
        (fun pc acc =>
          if pc.1 = 1 then (("right_click", pc.2) :: acc.1, acc.2)
          else if pc.1 = 0 then (("click", pc.2) :: acc.1, acc.2)
          else (acc.1, pc :: acc.2)) ([], [])).1 →
      ∃ pc ∈ l, (pc.1 = 1 ∧ mv = ("right_click", pc.2)) ∨
        (pc.1 = 0 ∧ mv = ("click", pc.2)) := by
    intro l
    induction l with
    | nil => intro h; exact absurd h (List.not_mem_nil mv)
    | cons pc t ih =>
      intro h
      rw [List.foldr_cons] at h
      split_ifs at h with h1 h0
      · rw [List.mem_cons] at h
        rcases h with rfl | h
        · exact ⟨pc, List.mem_cons_self pc t, Or.inl ⟨h1, rfl⟩⟩
        · obtain ⟨pc', hpc', hcase⟩ := ih h
          exact ⟨pc', List.mem_cons_of_mem pc hpc', hcase⟩
      · rw [List.mem_cons] at h
        rcases h with rfl | h
        · exact ⟨pc, List.mem_cons_self pc t, Or.inr ⟨h0, rfl⟩⟩
        · obtain ⟨pc', hpc', hcase⟩ := ih h
          exact ⟨pc', List.mem_cons_of_mem pc hpc', hcase⟩
      · obtain ⟨pc', hpc', hcase⟩ := ih h
        exact ⟨pc', List.mem_cons_of_mem pc hpc', hcase⟩
  obtain ⟨pc, hpc, hcase⟩ := key _ hmv
  rw [flatten_groups, List.mem_map] at hpc
  obtain ⟨c, hc, rfl⟩ := hpc
  rw [mem_ascCells] at hc
  rcases hcase with ⟨hp, rfl⟩ | ⟨hp, rfl⟩
  · exact ⟨hc, Or.inl ⟨rfl, hp⟩⟩
  · exact ⟨hc, Or.inr ⟨rfl, hp⟩⟩

lemma card_inter_sdiff_add {m A B : Finset Cell} :
    (m ∩ (A \ B)).card + (m ∩ (A ∩ B)).card = (m ∩ A).card := by
  have h1 : m ∩ (A \ B) = (m ∩ A) \ (m ∩ (A ∩ B)) := by
    ext x
    simp only [Finset.mem_inter, Finset.mem_sdiff]
    tauto
  have h2 : m ∩ (A ∩ B) ⊆ m ∩ A := by
    intro x hx
    simp only [Finset.mem_inter] at hx ⊢
    tauto
  rw [h1]
  exact Finset.card_sdiff_add_card_eq_card h2

/-- Subtraction of sound groups is sound (`Group.__sub__` preserves the
constraint semantics). -/
lemma sub_sound {A B : Group} {m : Finset Cell} (hA : soundFor m A)
    (hB : soundFor m B) : soundFor m (A.sub B) := by
  obtain ⟨hA1, hA2⟩ := hA
  obtain ⟨hB1, hB2⟩ := hB
  have e1 : (m ∩ (A.cells \ B.cells)).card + (m ∩ (A.cells ∩ B.cells)).card
      = (m ∩ A.cells).card := card_inter_sdiff_add
  have e2 : (m ∩ (B.cells \ A.cells)).card + (m ∩ (A.cells ∩ B.cells)).card
      = (m ∩ B.cells).card := by
    have := card_inter_sdiff_add (m := m) (A := B.cells) (B := A.cells)
    rwa [Finset.inter_comm B.cells A.cells] at this
  have e3 : (m ∩ (B.cells \ A.cells)).card ≤ (B.cells \ A.cells).card :=
    Finset.card_le_card Finset.inter_subset_right
  have e4 : (m ∩ (A.cells \ B.cells)).card ≤ (A.cells \ B.cells).card :=
    Finset.card_le_card Finset.inter_subset_right
  unfold soundFor Group.sub
  dsimp only
  omega

/-- Intersection of sound groups is sound (`Group.__and__` preserves the
constraint semantics). -/
lemma inter_sound {A B : Group} {m : Finset Cell} (hA : soundFor m A)
    (hB : soundFor m B) : soundFor m (A.inter B) := by
  obtain ⟨hA1, hA2⟩ := hA
  obtain ⟨hB1, hB2⟩ := hB
  have e1 : (m ∩ (A.cells \ B.cells)).card + (m ∩ (A.cells ∩ B.cells)).card
      = (m ∩ A.cells).card := card_inter_sdiff_add
  have e2 : (m ∩ (B.cells \ A.cells)).card + (m ∩ (A.cells ∩ B.cells)).card
      = (m ∩ B.cells).card := by
    have := card_inter_sdiff_add (m := m) (A := B.cells) (B := A.cells)
    rwa [Finset.inter_comm B.cells A.cells] at this
  have e3 : (m ∩ (B.cells \ A.cells)).card ≤ (B.cells \ A.cells).card :=
    Finset.card_le_card Finset.inter_subset_right
  have e4 : (m ∩ (A.cells \ B.cells)).card ≤ (A.cells \ B.cells).card :=
    Finset.card_le_card Finset.inter_subset_right
  have e5 : (m ∩ (A.cells ∩ B.cells)).card ≤ (A.cells ∩ B.cells).card :=
    Finset.card_le_card Finset.inter_subset_right
  unfold soundFor Group.inter
  dsimp only
  omega

/-- On a consistent board, the flags-remaining count of a numbered cell
equals the number of mines among its unrevealed neighbors. -/
lemma num_flags_left_eq_mines {b : Board} {m : Finset Cell} {k : ℤ} {c : Cell}
    (hcons : b.consistent m k) (hc : c ∈ b.cellsAll) (hnum : b.is_number c) :
    b.num_flags_left c = ((m ∩ b.unrevealedNbrs c).card : ℤ) := by
  obtain ⟨hmsub, hflag, hmine, hnumbers, hcount⟩ := hcons
  have hsplit : (b.neighbors c).filter (fun q => q ∈ m)
      = ((b.unrevealedNbrs c).filter (fun q => q ∈ m)) ∪ b.flaggedNbrs c := by
    ext x
    simp only [Finset.mem_filter, Finset.mem_union, mem_unrevealedNbrs,
      Board.flaggedNbrs]
    constructor
    · rintro ⟨hxn, hxm⟩
      rcases hmine x hxm with hu | hf
      · exact Or.inl ⟨⟨hxn, hu⟩, hxm⟩
      · exact Or.inr ⟨hxn, hf⟩
    · rintro (⟨⟨hxn, -⟩, hxm⟩ | hx)
      · exact ⟨hxn, hxm⟩
      · exact ⟨hx.1, hflag x (neighbors_subset_cellsAll hx.1) hx.2⟩
  have hdisj : Disjoint ((b.unrevealedNbrs c).filter (fun q => q ∈ m))
      (b.flaggedNbrs c) := by
    rw [Finset.disjoint_left]
    intro x hx hx'
    rw [Finset.mem_filter, mem_unrevealedNbrs] at hx
    rw [Board.flaggedNbrs, Finset.mem_filter] at hx'
    have h9 := hx.1.2
    have h10 := hx'.2
    rw [Board.is_unrevealed] at h9
    rw [Board.is_flagged] at h10
    omega
  have hcards : ((b.neighbors c).filter (fun q => q ∈ m)).card
      = ((b.unrevealedNbrs c).filter (fun q => q ∈ m)).card + (b.flaggedNbrs c).card := by
    rw [hsplit, Finset.card_union_of_disjoint hdisj]
  have hinter : (b.unrevealedNbrs c).filter (fun q => q ∈ m) = m ∩ b.unrevealedNbrs c := by
    ext x
    simp only [Finset.mem_filter, Finset.mem_inter]
    tauto
  have hnumc := hnumbers c hc hnum.1
  rw [Board.num_flags_left]
  rw [hinter] at hcards
  omega

/-- Every group seeded by `find_visible_groups` on a consistent board is a
sound constraint and satisfies the full bound invariant. -/
lemma find_visible_groups_sound {b : Board} {m : Finset Cell} {k : ℤ}
    (hcons : b.consistent m k) (cellsList : List Cell)
    (hlist : ∀ c ∈ cellsList, c ∈ b.cellsAll) :
    ∀ g ∈ find_visible_groups b cellsList k,
      soundFor m g ∧ 0 ≤ g.lower_bound ∧ g.lower_bound ≤ g.upper_bound ∧
        g.upper_bound ≤ (g.cells.card : ℤ) := by
  intro g hg
  rw [find_visible_groups, List.mem_append] at hg
  rcases hg with hg | hg
  · -- a numbered cell's group
    rw [List.mem_map] at hg
    obtain ⟨c, hcfilter, rfl⟩ := hg
    rw [List.mem_filter] at hcfilter
    obtain ⟨hcnum, -⟩ := hcfilter
    rw [List.mem_filter] at hcnum
    obtain ⟨hcl, hcnum⟩ := hcnum
    have hnum : b.is_number c := by simpa using hcnum
    have hc : c ∈ b.cellsAll := hlist c hcl
    have hkey := num_flags_left_eq_mines hcons hc hnum
    have hle : (m ∩ b.unrevealedNbrs c).card ≤ (b.unrevealedNbrs c).card :=
      Finset.card_le_card Finset.inter_subset_right
    refine ⟨⟨le_of_eq hkey, ge_of_eq hkey⟩, ?_, le_refl _, ?_⟩
    · show (0 : ℤ) ≤ b.num_flags_left c
      omega
    · show b.num_flags_left c ≤ _
      rw [hkey]
      exact_mod_cast hle
  · -- the board-wide catch-all group
    rw [List.mem_singleton] at hg
    subst hg
    obtain ⟨hmsub, hflag, hmine, hnumbers, hcount⟩ := hcons
    have hsubU : (cellsList.filter fun c => decide (b.is_unrevealed c)).toFinset
        ⊆ b.unrevealedCells := by
      intro x hx
      rw [List.mem_toFinset, List.mem_filter] at hx
      rw [mem_unrevealedCells]
      exact ⟨hlist x hx.1, by simpa using hx.2⟩
    have hinter : m ∩ (cellsList.filter fun c => decide (b.is_unrevealed c)).toFinset
        ⊆ b.unrevealedCells.filter (fun c => c ∈ m) := by
      intro x hx
      rw [Finset.mem_inter] at hx
      rw [Finset.mem_filter]
      exact ⟨hsubU hx.2, hx.1⟩
    have hcard := Finset.card_le_card hinter
    have hcardsub : (m ∩ (cellsList.filter fun c => decide (b.is_unrevealed c)).toFinset).card
        ≤ (cellsList.filter fun c => decide (b.is_unrevealed c)).toFinset.card :=
      Finset.card_le_card Finset.inter_subset_right
    unfold soundFor
    dsimp only
    omega

/-- Consistency invariant of a `PropertyGraph` state: the reverse index
agrees with the forward index on every object of the graph, and objects
outside the graph occur in neither index. -/
def PGInv (s : PGState) : Prop :=
  (∀ o ∈ s.dom, ∀ p, o ∈ s.reverse p ↔ p ∈ s.props_of o) ∧
  (∀ o, o ∉ s.dom → s.props_of o = ∅) ∧
  (∀ o p, o ∉ s.dom → o ∉ s.reverse p)

lemma PGInv_init : PGInv PGState.init := by
  refine ⟨?_, ?_, ?_⟩ <;> simp [PGState.init]

lemma PGInv_addOp {s : PGState} (h : PGInv s) (o : ℕ) (ps : List ℕ) :
    PGInv (s.addOp o ps) := by
  obtain ⟨h1, h2, h3⟩ := h
  refine ⟨?_, ?_, ?_⟩
  · intro o' ho' p
    simp only [PGState.addOp, Finset.mem_insert] at ho' ⊢
    by_cases heq : o' = o
    · subst heq
      simp only [if_pos rfl, Finset.mem_union, List.mem_toFinset]
      by_cases hp : p ∈ ps
      · simp [if_pos hp, hp]
      · rw [if_neg hp]
        by_cases hdom : o' ∈ s.dom
        · rw [h1 o' hdom p]
          simp [hp]
        · rw [h2 o' hdom]
          simp [hp, h3 o' p hdom]
    · rw [if_neg heq]
      have hdom : o' ∈ s.dom := ho'.resolve_left heq
      by_cases hp : p ∈ ps
      · rw [if_pos hp, Finset.mem_insert]
        simp only [heq, false_or]
        exact h1 o' hdom p
      · rw [if_neg hp]
        exact h1 o' hdom p
  · intro o' ho'
    simp only [PGState.addOp, Finset.mem_insert, not_or] at ho'
    simp only [PGState.addOp]
    rw [if_neg ho'.1]
    exact h2 o' ho'.2
  · intro o' p ho'
    simp only [PGState.addOp, Finset.mem_insert, not_or] at ho'
    simp only [PGState.addOp]
    split_ifs
    · rw [Finset.mem_insert]
      push_neg
      exact ⟨ho'.1, h3 o' p ho'.2⟩
    · exact h3 o' p ho'.2

lemma PGInv_removeOp {s : PGState} (h : PGInv s) (o : ℕ) :
    PGInv (s.removeOp o) := by
  obtain ⟨h1, h2, h3⟩ := h
  refine ⟨?_, ?_, ?_⟩
  · intro o' ho' p
    simp only [PGState.removeOp, Finset.mem_erase] at ho' ⊢
    rw [if_neg ho'.1]
    by_cases hp : p ∈ s.props_of o
    · rw [if_pos hp, Finset.mem_erase]
      constructor
      · rintro ⟨-, hmem⟩
        exact (h1 o' ho'.2 p).1 hmem
      · intro hp'
        exact ⟨ho'.1, (h1 o' ho'.2 p).2 hp'⟩
    · rw [if_neg hp]
      exact h1 o' ho'.2 p
  · intro o' ho'
    simp only [PGState.removeOp, Finset.mem_erase] at ho' ⊢
    push_neg at ho'
    by_cases heq : o' = o
    · rw [if_pos heq]
    · rw [if_neg heq]
      exact h2 o' (ho' heq)
  · intro o' p ho'
    simp only [PGState.removeOp, Finset.mem_erase] at ho' ⊢
    push_neg at ho'
    by_cases heq : o' = o
    · subst heq
      split_ifs with hp
      · exact Finset.not_mem_erase o' _
      · by_cases hdom : o' ∈ s.dom
        · rw [h1 o' hdom p]
          exact hp
        · exact h3 o' p hdom
    · have hdom : o' ∉ s.dom := ho' heq
      split_ifs with hp
      · rw [Finset.mem_erase]
        push_neg
        intro _
        exact h3 o' p hdom
      · exact h3 o' p hdom

lemma PGInv_run_from {s : PGState} (h : PGInv s) :
    ∀ ops : List PGOp, PGInv (ops.foldl
      (fun s op => match op with
        | PGOp.add o ps => s.addOp o ps
        | PGOp.remove o => s.removeOp o) s) := by
  intro ops
  induction ops generalizing s with
  | nil => exact h
  | cons op rest ih =>
    rw [List.foldl_cons]
    cases op with
    | add o ps => exact ih (PGInv_addOp h o ps)
    | remove o => exact ih (PGInv_removeOp h o)

lemma PGInv_run (ops : List PGOp) : PGInv (PGState.run ops) :=
  PGInv_run_from PGInv_init ops

/-- The unrevealed cells of the collection that are adjacent to no numbered
cell of the collection.  This follows the words of the spec, which says the
catch-all constraint ranges over "any of the system's unrevealed cells
touched by no number"; it is compared against what the code builds. -/
def untouched_unrevealed (b : Board) (cells : List Cell) : Finset Cell :=
  (cells.filter fun c => decide (b.is_unrevealed c)).toFinset \
    ((cells.filter fun c => decide (b.is_number c)).toFinset.biUnion
      fun c => b.unrevealedNbrs c)

/-- A deterministic instance of the arbitrary `set.pop` of `find_systems`:
pick the minimum. -/
def pickMin (s : Finset Cell) : Cell :=
  if h : s.Nonempty then s.min' h else 0

lemma pickMin_mem : ∀ s : Finset Cell, s ≠ ∅ → pickMin s ∈ s := by
  intro s hs
  rw [pickMin, dif_pos (Finset.nonempty_iff_ne_empty.2 hs)]
  exact Finset.min'_mem s _

/-- A 1-wide, 2-tall board: a revealed "1" above one unrevealed cell. -/
def board12 : Board := ⟨1, 2, fun c => if c = 0 then 1 else 9⟩

/-- A 1-wide, 2-tall board: a revealed "2" above one unrevealed cell, a
board state whose numbers are contradictory. -/
def board12two : Board := ⟨1, 2, fun c => if c = 0 then 2 else 9⟩

/-- A 3-wide, 2-tall board: a row of three revealed "1"s above a row of
three unrevealed cells.  With one mine left it is consistent exactly with
a mine at the middle unrevealed cell (cell 4). -/
def board32 : Board := ⟨3, 2, fun c => if c ≤ 2 then 1 else 9⟩

/-- A 5-wide, 1-tall board with two separated unrevealed regions:
unrevealed, "1", empty, "1", unrevealed. -/
def board51 : Board :=
  ⟨5, 1, fun c => if c = 0 then 9 else if c = 1 then 1 else if c = 2 then 0
    else if c = 3 then 1 else 9⟩

/-- Two overlapping `[0, 0]` groups: a graph with no independent groups. -/
def graphOverlap : Finset Group := {⟨{0, 1}, 0, 0⟩, ⟨{1, 2}, 0, 0⟩}

/-- A graph with one independent group (over cell 5) next to two
overlapping groups. -/
def graphMixed : Finset Group :=
  {⟨{5}, 1, 1⟩, ⟨{0, 1}, 0, 1⟩, ⟨{1, 2}, 0, 1⟩}

lemma foldl_inter_empty (l : List (Finset Cell)) :
    l.foldl (fun acc s => acc ∩ s) ∅ = ∅ := by
  induction l with
  | nil => rfl
  | cons s t ih => rw [List.foldl_cons, Finset.empty_inter]; exact ih

/-- The `shared` set of `endgame_insight` is the empty set on every board:
`reduce(operator.and_, ..., set())` starts the intersection fold from the
empty set. -/
lemma endgame_shared_empty (b : Board) : endgame_shared b = ∅ :=
  foldl_inter_empty _

/-- C1: for every board state and mine count, if every group handed to the
resolver is a sound constraint (within bounds `0 ≤ lower` and
`upper ≤ |cells|`) for every mine placement consistent with the observed
numbers, then every `click` move `split_moves` emits reveals a cell that is
a mine in no consistent placement, and every `right_click` move flags a
cell that is a mine in every consistent placement. -/
theorem C1_confident_move_soundness (b : Board) (mines_left : ℤ) (groups : List Group)
    (hwf : ∀ g ∈ groups, 0 ≤ g.lower_bound ∧ g.upper_bound ≤ (g.cells.card : ℤ))
    (hsound : ∀ m ∈ b.cellsAll.powerset, b.consistent m mines_left →
      ∀ g ∈ groups, soundFor m g) :
    ∀ m ∈ b.cellsAll.powerset, b.consistent m mines_left →
      ∀ mv ∈ (split_moves groups).1,
        (mv.1 = "click" → mv.2 ∉ m) ∧ (mv.1 = "right_click" → mv.2 ∈ m) := by
  intro m hm hcons mv hmv
  obtain ⟨hcell, hcase⟩ := split_moves_spec hmv
  obtain ⟨g, hg, hcg, hgp⟩ := flatten_prob_attained hcell
  have hs := hsound m hm hcons g hg
  have hw := hwf g hg
  constructor
  · intro hclick
    rcases hcase with ⟨hrc, -⟩ | ⟨-, hp0⟩
    · rw [hclick] at hrc
      exact absurd hrc (by decide)
    · exact prob_zero_safe hw.1 hs (hgp.trans hp0) mv.2 hcg
  · intro hflag
    rcases hcase with ⟨-, hp1⟩ | ⟨hcl, -⟩
    · exact prob_one_mine hw.2 hs (hgp.trans hp1) mv.2 hcg
    · rw [hflag] at hcl
      exact absurd hcl (by decide)

/-- Witness for C1 on the 1×2 board with a revealed "1" over one unrevealed
cell: the only consistent placement puts the mine there, and the resolver
flags it. -/
theorem C1_witness :
    board12.consistent {1} 1 ∧
    (∀ mv ∈ (split_moves [(⟨{1}, 1, 1⟩ : Group)]).1,
      (mv.1 = "click" → mv.2 ∉ ({1} : Finset Cell)) ∧
      (mv.1 = "right_click" → mv.2 ∈ ({1} : Finset Cell))) :=
  ⟨by decide,
    C1_confident_move_soundness board12 1 [⟨{1}, 1, 1⟩] (by decide) (by decide)
      {1} (by decide) (by decide)⟩

/-- C3 (amended): the spec-modelled independent-group query returns exactly
the indexed groups whose cells are disjoint from every other indexed
group's, and after the fixed-point loop of `System.simplify`: when the
independent upper bounds sum to the system's upper bound and the
non-independent groups cover at least one cell, the graph is replaced by
the independent groups plus a single `[0, 0]` group over the remaining
cells; the system's lower bound becomes the sum of the independent lower
bounds whenever at least one independent group exists, and keeps its old
value otherwise. -/
theorem C3_simplify_tail (lower ub : ℤ) (graph : Finset Group) :
    (∀ g, g ∈ get_independent_objects graph ↔
        g ∈ graph ∧ ∀ g2 ∈ graph, g2 ≠ g → Disjoint g.cells g2.cells) ∧
    ((∑ g ∈ get_independent_objects graph, g.upper_bound) = ub →
      (graph \ get_independent_objects graph).biUnion (fun g => g.cells) ≠ ∅ →
      (simplify_tail lower ub graph).2 =
        get_independent_objects graph ∪
          {⟨(graph \ get_independent_objects graph).biUnion (fun g => g.cells), 0, 0⟩}) ∧
    (get_independent_objects graph ≠ ∅ →
      (simplify_tail lower ub graph).1 = ∑ g ∈ get_independent_objects graph, g.lower_bound) ∧
    (get_independent_objects graph = ∅ →
      (simplify_tail lower ub graph).1 = lower) := by
  refine ⟨?_, ?_, ?_, ?_⟩
  · intro g
    rw [get_independent_objects, Finset.mem_filter]
  · intro hsum hne
    unfold simplify_tail
    dsimp only
    rw [if_pos hsum, if_pos hne]
  · intro hne
    unfold simplify_tail
    dsimp only
    rw [if_pos hne]
  · intro he
    unfold simplify_tail
    dsimp only
    rw [if_neg (by rw [he]; exact fun hcon => hcon rfl)]

/-- Counterexample to C3 as stated: a fixed-point graph of two overlapping
`[0, 0]` groups has no independent groups, so the independent upper bounds
sum to 0; with system upper bound 0 the claimed update of the system's
lower bound to the (empty) sum does not happen — the code keeps the old
lower bound 5. -/
theorem C3_lower_counterexample :
    get_independent_objects graphOverlap = ∅ ∧
    (∑ g ∈ get_independent_objects graphOverlap, g.upper_bound) = 0 ∧
    (simplify_tail 5 0 graphOverlap).1 = 5 ∧
    (simplify_tail 5 0 graphOverlap).1 ≠
      ∑ g ∈ get_independent_objects graphOverlap, g.lower_bound := by decide

/-- Witness for C3 on a graph with one independent group and two
overlapping ones. -/
theorem C3_witness :
    (simplify_tail 0 1 graphMixed).2 =
      get_independent_objects graphMixed ∪
        {⟨(graphMixed \ get_independent_objects graphMixed).biUnion (fun g => g.cells),
          0, 0⟩} ∧
    (simplify_tail 0 1 graphMixed).1 =
      ∑ g ∈ get_independent_objects graphMixed, g.lower_bound :=
  ⟨(C3_simplify_tail 0 1 graphMixed).2.1 (by decide) (by decide),
   (C3_simplify_tail 0 1 graphMixed).2.2.1 (by decide)⟩

/-- C4: the subtraction and intersection of groups return exactly the cell
sets and tightened bounds the specification states. -/
theorem C4_sub_inter_formulas (A B : Group) :
    (A.sub B).cells = A.cells \ B.cells ∧
    (A.sub B).upper_bound = min ((A.cells \ B.cells).card : ℤ)
      (A.upper_bound - (B.lower_bound - ((B.cells \ A.cells).card : ℤ))) ∧
    (A.sub B).lower_bound = max 0 (A.lower_bound - min A.upper_bound B.upper_bound) ∧
    (A.inter B).cells = A.cells ∩ B.cells ∧
    (A.inter B).upper_bound =
      min ((A.cells ∩ B.cells).card : ℤ) (min A.upper_bound B.upper_bound) ∧
    (A.inter B).lower_bound =
      max 0 (max (A.lower_bound - ((A.cells \ B.cells).card : ℤ))
        (B.lower_bound - ((B.cells \ A.cells).card : ℤ))) :=
  ⟨rfl, rfl, rfl, rfl, rfl, rfl⟩

/-- C5 (amended): subtraction and intersection always keep `0 ≤ lower` and
`upper ≤ |cells|`, and keep `lower ≤ upper` whenever their two arguments
are simultaneously satisfiable by a common placement; the groups seeded by
`find_visible_groups` satisfy the full invariant whenever the board state
is consistent with some placement.  (On a contradictory board a seeded
group can violate `upper ≤ |cells|`, see the counterexample.) -/
theorem C5_bound_invariant_amended :
    (∀ A B : Group,
      0 ≤ (A.sub B).lower_bound ∧
      (A.sub B).upper_bound ≤ ((A.sub B).cells.card : ℤ) ∧
      0 ≤ (A.inter B).lower_bound ∧
      (A.inter B).upper_bound ≤ ((A.inter B).cells.card : ℤ)) ∧
    (∀ (m : Finset Cell) (A B : Group), soundFor m A → soundFor m B →
      (A.sub B).lower_bound ≤ (A.sub B).upper_bound ∧
      (A.inter B).lower_bound ≤ (A.inter B).upper_bound) ∧
    (∀ (b : Board) (m : Finset Cell) (k : ℤ) (cellsList : List Cell),
      b.consistent m k → (∀ c ∈ cellsList, c ∈ b.cellsAll) →
      ∀ g ∈ find_visible_groups b cellsList k,
        0 ≤ g.lower_bound ∧ g.lower_bound ≤ g.upper_bound ∧
          g.upper_bound ≤ (g.cells.card : ℤ)) := by
  refine ⟨?_, ?_, ?_⟩
  · intro A B
    exact ⟨le_max_left 0 _, min_le_left _ _, le_max_left 0 _, min_le_left _ _⟩
  · intro m A B hA hB
    exact ⟨soundFor_lower_le_upper (sub_sound hA hB),
      soundFor_lower_le_upper (inter_sound hA hB)⟩
  · intro b m k cellsList hcons hlist g hg
    have h := find_visible_groups_sound hcons cellsList hlist g hg
    exact ⟨h.2.1, h.2.2.1, h.2.2.2⟩

/-- Counterexample to C5 as stated: on the (contradictory) 1×2 board whose
"2" has a single unrevealed neighbor, seeding produces the group
`({1}, 2, 2)` with upper bound 2 over one cell, violating
`upper ≤ |cells|`. -/
theorem C5_invariant_counterexample :
    (⟨{1}, 2, 2⟩ : Group) ∈ find_visible_groups board12two [0, 1] 2 ∧
    ¬ ((⟨{1}, 2, 2⟩ : Group).upper_bound ≤
        (((⟨{1}, 2, 2⟩ : Group).cells.card) : ℤ)) := by decide

/-- Witness for C5 with the seeded number group of the consistent 1×2
board. -/
theorem C5_witness :
    0 ≤ (⟨{1}, 1, 1⟩ : Group).lower_bound ∧
    (⟨{1}, 1, 1⟩ : Group).lower_bound ≤ (⟨{1}, 1, 1⟩ : Group).upper_bound ∧
    (⟨{1}, 1, 1⟩ : Group).upper_bound ≤ (((⟨{1}, 1, 1⟩ : Group).cells.card) : ℤ) :=
  C5_bound_invariant_amended.2.2 board12 {1} 1 [0, 1] (by decide) (by decide)
    ⟨{1}, 1, 1⟩ (by decide)

/-- C6: for every board and every admissible popping order, the systems
produced by `find_systems` have pairwise disjoint unrevealed sets whose
union is exactly the set of unrevealed cells of the board, and every edge
cell of a system is a numbered cell adjacent to at least one of the
system's unrevealed cells. -/
theorem C6_find_systems_partition (b : Board) (ub : ℤ) (pick : Finset Cell → Cell)
    (hpick : ∀ s : Finset Cell, s ≠ ∅ → pick s ∈ s) :
    List.Pairwise (fun s1 s2 => Disjoint s1.unrevealed s2.unrevealed)
      (find_systems b ub pick) ∧
    (∀ c, c ∈ b.unrevealedCells ↔
      ∃ sys ∈ find_systems b ub pick, c ∈ sys.unrevealed) ∧
    (∀ sys ∈ find_systems b ub pick, ∀ e ∈ sys.edges,
      b.is_number e ∧ ∃ u ∈ sys.unrevealed, e ∈ b.neighbors u) := by
  obtain ⟨j1, j2, j3, j4⟩ := find_systems_go_spec b ub pick hpick
    (b.unrevealedCells.card + 1) b.unrevealedCells (Finset.Subset.refl _)
    (fun c hc x hx _ => hx) le_rfl
  refine ⟨j3, ?_, j4⟩
  intro c
  constructor
  · intro hc
    exact j2 c hc
  · rintro ⟨sys, hsys, hcs⟩
    exact j1 sys hsys hcs

/-- Witness for C6 on the 5×1 board with two separated unrevealed regions,
popping minima first. -/
theorem C6_witness :
    List.Pairwise (fun s1 s2 => Disjoint s1.unrevealed s2.unrevealed)
      (find_systems board51 2 pickMin) ∧
    (∀ c, c ∈ board51.unrevealedCells ↔
      ∃ sys ∈ find_systems board51 2 pickMin, c ∈ sys.unrevealed) ∧
    (∀ sys ∈ find_systems board51 2 pickMin, ∀ e ∈ sys.edges,
      board51.is_number e ∧ ∃ u ∈ sys.unrevealed, e ∈ board51.neighbors u) :=
  C6_find_systems_partition board51 2 pickMin pickMin_mem

/-- C7 (amended): seeding yields one group per numbered cell that has at
least one unrevealed neighbor, over exactly those neighbors with both
bounds equal to the flags-remaining count, plus the board-wide catch-all
group over ALL the unrevealed cells of the collection with bounds
`[0, min(count, total left)]`; and every edge cell of a traced system does
have an unrevealed neighbor, so no numbered edge cell is skipped. -/
theorem C7_find_visible_groups (b : Board) (cellsList : List Cell) (k : ℤ) :
    (∀ g ∈ find_visible_groups b cellsList k,
      (∃ c ∈ cellsList, b.is_number c ∧ (b.unrevealedNbrs c).Nonempty ∧
        g = ⟨b.unrevealedNbrs c, b.num_flags_left c, b.num_flags_left c⟩) ∨
      g = ⟨(cellsList.filter fun c => decide (b.is_unrevealed c)).toFinset, 0,
        min (((cellsList.filter fun c => decide (b.is_unrevealed c)).toFinset.card) : ℤ) k⟩) ∧
    (∀ c ∈ cellsList, b.is_number c → (b.unrevealedNbrs c).Nonempty →
      (⟨b.unrevealedNbrs c, b.num_flags_left c, b.num_flags_left c⟩ : Group) ∈
        find_visible_groups b cellsList k) ∧
    ((⟨(cellsList.filter fun c => decide (b.is_unrevealed c)).toFinset, 0,
        min (((cellsList.filter fun c => decide (b.is_unrevealed c)).toFinset.card) : ℤ) k⟩ : Group) ∈
      find_visible_groups b cellsList k) ∧
    (∀ start ub, start ∈ b.unrevealedCells →
      ∀ e ∈ (System_trace b start ub).edges,
        b.is_number e ∧ (b.unrevealedNbrs e).Nonempty) := by
  refine ⟨?_, ?_, ?_, ?_⟩
  · intro g hg
    rw [find_visible_groups, List.mem_append] at hg
    rcases hg with hg | hg
    · rw [List.mem_map] at hg
      obtain ⟨c, hc, rfl⟩ := hg
      rw [List.mem_filter] at hc
      obtain ⟨hc1, hc2⟩ := hc
      rw [List.mem_filter] at hc1
      exact Or.inl ⟨c, hc1.1, by simpa using hc1.2, by simpa using hc2, rfl⟩
    · rw [List.mem_singleton] at hg
      exact Or.inr hg
  · intro c hc hnum hnonempty
    rw [find_visible_groups, List.mem_append]
    refine Or.inl ?_
    rw [List.mem_map]
    refine ⟨c, ?_, rfl⟩
    rw [List.mem_filter]
    refine ⟨?_, by simpa using hnonempty⟩
    rw [List.mem_filter]
    exact ⟨hc, by simpa using hnum⟩
  · rw [find_visible_groups, List.mem_append]
    exact Or.inr (List.mem_singleton.2 rfl)
  · intro start ub hstart e he
    obtain ⟨hmem, hedgesub, hwit⟩ := System_trace_spec b start ub hstart
    obtain ⟨u, hu, hnbr⟩ := hwit e he
    rw [mem_numberNbrs] at hnbr
    have hucells : u ∈ b.cellsAll := (mem_unrevealedCells.1 ((hmem u).1 hu).1).1
    have huunrev : b.is_unrevealed u := (mem_unrevealedCells.1 ((hmem u).1 hu).1).2
    refine ⟨(mem_numberedCells.1 (hedgesub he)).2, ⟨u, ?_⟩⟩
    rw [mem_unrevealedNbrs]
    exact ⟨mem_neighbors_symm hucells hnbr.1, huunrev⟩

/-- Counterexample to C7 as stated: on the 1×2 board the traced system's
catch-all group covers the unrevealed cell 1 even though 1 is touched by
the numbered cell 0; no seeded group ranges over the (empty) set of
unrevealed cells touched by no number. -/
theorem C7_catchall_counterexample :
    ascCells ((System_trace board12 1 1).unrevealed ∪ (System_trace board12 1 1).edges)
      = [0, 1] ∧
    (⟨{1}, 0, 1⟩ : Group) ∈ (System_trace board12 1 1).groups ∧
    board12.is_number 0 ∧ (1 : Cell) ∈ board12.unrevealedNbrs 0 ∧
    untouched_unrevealed board12 [0, 1] = ∅ ∧
    (∀ g ∈ (System_trace board12 1 1).groups,
      g.cells ≠ untouched_unrevealed board12 [0, 1]) := by decide

/-- Witness for C7: the catch-all group of the 1×2 board's seeding. -/
theorem C7_witness :
    (⟨(([0, 1] : List Cell).filter fun c => decide (board12.is_unrevealed c)).toFinset, 0,
      min (((([0, 1] : List Cell).filter
        fun c => decide (board12.is_unrevealed c)).toFinset.card) : ℤ) 1⟩ : Group) ∈
    find_visible_groups board12 [0, 1] 1 :=
  (C7_find_visible_groups board12 [0, 1] 1).2.2.1

/-- C8: the `shared` set `endgame_insight` computes is always empty because
the intersection fold starts from the empty set, so on the consistent 3×2
board whose three "1"s share exactly the unrevealed cell 4 and with one
mine left — where the claimed rule must flag cell 4 — the code emits no
plan at all. -/
theorem C8_endgame_insight_bug :
    (∀ b : Board, endgame_shared b = ∅) ∧
    board32.consistent {4} 1 ∧
    spec_shared board32 = {4} ∧
    (1 : ℤ) = ((spec_shared board32).card : ℤ) ∧
    endgame_insight board32 1 = [] := by
  refine ⟨endgame_shared_empty, ?_, ?_, ?_, ?_⟩ <;> decide

/-- C9: under every sequence of add/remove operations the bidirectional
index of `PropertyGraph` stays consistent: an object of the graph sits in
`objects_containing(p)` exactly when `p` is among its properties, an
object outside the graph sits in no reverse set, and in particular after
`remove(o)` the object `o` has been discarded from every reverse set. -/
theorem C9_property_graph_invariant (ops : List PGOp) :
    (∀ o ∈ (PGState.run ops).dom, ∀ p,
      o ∈ (PGState.run ops).reverse p ↔ p ∈ (PGState.run ops).props_of o) ∧
    (∀ o p, o ∉ (PGState.run ops).dom → o ∉ (PGState.run ops).reverse p) ∧
    (∀ o p, o ∉ (PGState.run (ops ++ [PGOp.remove o])).reverse p) := by
  obtain ⟨h1, h2, h3⟩ := PGInv_run ops
  refine ⟨h1, fun o p => h3 o p, ?_⟩
  intro o p
  have hrun : PGState.run (ops ++ [PGOp.remove o]) = (PGState.run ops).removeOp o := by
    rw [PGState.run, PGState.run, List.foldl_append, List.foldl_cons, List.foldl_nil]
  rw [hrun]
  obtain ⟨g1, g2, g3⟩ := PGInv_removeOp (PGInv_run ops) o
  exact g3 o p (Finset.not_mem_erase o _)

/-- C10: Python equality of groups is exactly equality of the
`(cells, lower_bound, upper_bound)` triple — the `sources` field plays no
role — and equal groups hash equally, whatever the underlying hash. -/
theorem C10_eq_hash_by_triple (a b : GroupS) :
    (a.pyEq b ↔
      (a.cells = b.cells ∧ a.lower_bound = b.lower_bound ∧
        a.upper_bound = b.upper_bound)) ∧
    (a.pyEq b → ∀ h, a.pyHash h = b.pyHash h) := by
  constructor
  · unfold GroupS.pyEq GroupS.deconstruct
    simp [Prod.ext_iff]
  · intro he h
    unfold GroupS.pyHash
    rw [he]

/-- Witness for C10: two groups identical except for their sources compare
equal and hash equal. -/
theorem C10_witness :
    GroupS.pyEq ⟨{0}, 1, 2, {"number"}⟩ ⟨{0}, 1, 2, {"board"}⟩ ∧
    GroupS.pyHash (fun _ => 0) (⟨{0}, 1, 2, {"number"}⟩ : GroupS) =
      GroupS.pyHash (fun _ => 0) (⟨{0}, 1, 2, {"board"}⟩ : GroupS) := by
  have h := C10_eq_hash_by_triple (⟨{0}, 1, 2, {"number"}⟩ : GroupS)
    ⟨{0}, 1, 2, {"board"}⟩
  have he : GroupS.pyEq ⟨{0}, 1, 2, {"number"}⟩ ⟨{0}, 1, 2, {"board"}⟩ :=
    h.1.mpr (by decide)
  exact ⟨he, h.2 he (fun _ => 0)⟩

end Minesweeper
